import Mathlib

/-!
Verification of the text-normalization and label-alignment logic of the
twitter-sentiment notebook (`src/twitter_sentiment.ipynb`).

The normalizer `liteParser` below is a shallow embedding of the notebook's
per-post normalization function.  Strings are embedded via their underlying
character lists (`String.data`); every Python operation used by the source
(`str.split()`, `str.strip()`, `str.join`, `str.split(sep)`, the four
anchored `re.sub` rewrites, and the character-class filter) is embedded by
an executable Lean function on `List Char`.

The call to the external standard-library routine `html.unescape` is
embedded as a function parameter `u : String → String`; the property of it
that the proofs need (a string containing no `&` is returned unchanged) is
captured by the predicate `UnescapeOK`.
-/

/-- The whitespace characters recognized by Python's `str.split()` /
`str.strip()`, restricted to the ASCII range (space, tab, newline,
carriage return, vertical tab, form feed). -/
def pyIsSpace (c : Char) : Bool :=
  c = ' ' || c = '\t' || c = '\n' || c = '\r' || c = '\x0b' || c = '\x0c'

/-- The character class of the filter step
`re.sub("[^a-zA-Z@#$0-9.,!?']", ' ', z)`: a character survives the filter
exactly when it matches `[a-zA-Z@#$0-9.,!?']`. -/
def allowedChar (c : Char) : Bool :=
  ('a' ≤ c && c ≤ 'z') || ('A' ≤ c && c ≤ 'Z') || ('0' ≤ c && c ≤ '9') ||
  c = '@' || c = '#' || c = '$' || c = '.' || c = ',' || c = '!' || c = '?' || c = '\''

/-- `startsWith pat l` : `pat` is an initial segment of `l`
(the anchored-match test of `re.sub('^pat...', ...)`). -/
def startsWith : List Char → List Char → Bool
  | [], _ => true
  | _ :: _, [] => false
  | p :: ps, c :: cs => p == c && startsWith ps cs

/-- Accumulator worker for `pySplitWS`; `acc` holds the reversed current
token. -/
def splitAux : List Char → List Char → List (List Char)
  | [], acc => if acc = [] then [] else [acc.reverse]
  | c :: cs, acc =>
    if pyIsSpace c then
      if acc = [] then splitAux cs [] else acc.reverse :: splitAux cs []
    else
      splitAux cs (c :: acc)

/-- Python `post.split()`: split on runs of whitespace, discarding empty
pieces (so leading/trailing whitespace yields nothing). -/
def pySplitWS (l : List Char) : List (List Char) := splitAux l []

/-- Python `z.strip()`: remove leading and trailing whitespace. -/
def pyStrip (l : List Char) : List Char :=
  (((l.dropWhile pyIsSpace).reverse).dropWhile pyIsSpace).reverse

/-- Python `' '.join(pieces)`: concatenate with a single space between
consecutive pieces. -/
def joinSp : List (List Char) → List Char
  | [] => []
  | [t] => t
  | t :: t' :: ts => t ++ ' ' :: joinSp (t' :: ts)

/-- Fuel-driven worker for `pySplitOnSeq` (Python `s.split(sep)` with an
explicit separator string): scan left to right, cutting at each
non-overlapping occurrence of `sep` and keeping empty pieces.  The fuel is
set to the length of the scanned list, which always suffices. -/
def splitGo (sep : List Char) : Nat → List Char → List (List Char)
  | _, [] => [[]]
  | 0, l => [l]
  | fuel + 1, c :: cs =>
    if startsWith sep (c :: cs) then
      [] :: splitGo sep fuel (cs.drop (sep.length - 1))
    else
      match splitGo sep fuel cs with
      | [] => [[c]]
      | p :: ps => (c :: p) :: ps

/-- Python `s.split(sep)` for a non-empty separator string `sep`. -/
def pySplitOnSeq (sep l : List Char) : List (List Char) :=
  splitGo sep l.length l

/-- The literal three-character separator `'\w+'` of the final cleanup step
`.split('\w+')` (a plain string, not a regex, under `str.split`). -/
def bsw : List Char := ['\\', 'w', '+']

/-- `re.sub('^http.*', '#link', z)`: a token starting with `http` is
replaced whole by `#link` (tokens contain no newline, so `.*` reaches the
end; `^` anchors the only possible match at position 0). -/
def subLink (z : List Char) : List Char :=
  if startsWith "http".data z then "#link".data else z

/-- `re.sub('^\@.*', '@mention', z)`. -/
def subMention (z : List Char) : List Char :=
  if startsWith "@".data z then "@mention".data else z

/-- `re.sub('^\$.*', '$cashtag', z)`. -/
def subCash (z : List Char) : List Char :=
  if startsWith "$".data z then "$cashtag".data else z

def isDigitC (c : Char) : Bool := '0' ≤ c && c ≤ '9'

/-- Length of the prefix of `z` matched by the anchored regex
`^\d+\.*\d+` under Python's greedy backtracking semantics, or `none` when
there is no match.  With `k` the leading digit run, `m` the following dot
run and `r` the digit run after the dots: if `r ≥ 1` the greedy match is
`k + m + r`; otherwise backtracking succeeds only when `k ≥ 2`, matching
just the digit run `k`; a single leading digit not followed by
dots-then-digit does not match. -/
def numMatchLen (z : List Char) : Option Nat :=
  let k := (z.takeWhile isDigitC).length
  if k = 0 then none
  else
    let afterK := z.drop k
    let m := (afterK.takeWhile (fun c => c = '.')).length
    let r := ((afterK.drop m).takeWhile isDigitC).length
    if r ≠ 0 then some (k + m + r)
    else if 2 ≤ k then some k
    else none

/-- `re.sub('^\d+\.*\d+', '#number', z)`: replace the matched numeric
prefix (if any) by `#number`, keeping the remainder of the token. -/
def subNum (z : List Char) : List Char :=
  match numMatchLen z with
  | some L => "#number".data ++ z.drop L
  | none => z

/-- `re.sub("[^a-zA-Z@#$0-9.,!?']", ' ', z)`: every character outside the
allowed class becomes a space. -/
def filterTok (z : List Char) : List Char :=
  z.map (fun c => if allowedChar c then c else ' ')

/-- The per-token composition of the four rewrites and the filter, in
source order (link, mention, cashtag, number, then the character filter). -/
def procTok (z : List Char) : List Char :=
  filterTok (subNum (subCash (subMention (subLink z))))

/-- The normalizer pipeline after `html.unescape`, up to and including
`' '.join([z.strip() for z in t_post if len(z.strip()) > 0]).strip()` —
i.e. the source pipeline with the final `.split('\w+')` step (and the
re-join it necessitates) removed. -/
def lpCoreNoSplit (post : List Char) : List Char :=
  let t1 := pySplitWS post
  let t2 := t1.map subLink
  let t3 := t2.map subMention
  let t4 := t3.map subCash
  let t5 := t4.map subNum
  let t6 := t5.map filterTok
  let kept := (t6.filter (fun z => decide (0 < (pyStrip z).length))).map pyStrip
  pyStrip (joinSp kept)

/-- The full normalizer pipeline after `html.unescape`: the common chain
`lpCoreNoSplit`, then `.split('\w+')` (literal separator) and the final
`' '.join(t_post)`. -/
def lpCore (post : List Char) : List Char :=
  joinSp (pySplitOnSeq bsw (lpCoreNoSplit post))

/-- The notebook's per-post normalizer (the `def` taking `post` in the
second code cell), with the external `html.unescape` passed as the
parameter `u`. -/
def liteParser (u : String → String) (s : String) : String :=
  ⟨lpCore (u s).data⟩

/-- `liteParser` with the final `.split('\w+')` cleanup step removed. -/
def liteParserNoSplit (u : String → String) (s : String) : String :=
  ⟨lpCoreNoSplit (u s).data⟩

/-- The property of `html.unescape` the proofs rely on: a string containing
no ampersand has no character-entity reference and is returned unchanged
(CPython's `html.unescape` begins with `if '&' not in s: return s`). -/
def UnescapeOK (u : String → String) : Prop :=
  ∀ t : String, (∀ c ∈ t.data, c ≠ '&') → u t = t

/-! ## Label alignment -/

/-- The three canonical sentiment categories. -/
inductive Sentiment
  | positive
  | negative
  | neutral
  deriving DecidableEq, Fintype, Repr

/-- The dataset label convention stated in the notebook: "0 is negative,
1 is positive, and 2 is neutral". -/
def datasetCat : Nat → Option Sentiment
  | 0 => some .negative
  | 1 => some .positive
  | 2 => some .neutral
  | _ => none

/-- The model's id-to-label table as printed by the notebook from
`model.config.id2label`: `[(0, 'positive'), (1, 'negative'), (2, 'neutral')]`. -/
def id2label : Nat → Option Sentiment
  | 0 => some .positive
  | 1 => some .negative
  | 2 => some .neutral
  | _ => none

/-- The model label string for each canonical category (the strings used as
keys of `xmap` and values of `id2label` in the notebook). -/
def canonStr : Sentiment → String
  | .positive => "positive"
  | .negative => "negative"
  | .neutral => "neutral"

/-- The fine-tuning remap `sent_map = {1:0,0:1,2:2}` as its literal list of
key-value pairs, in source order. -/
def sentMapPairs : List (Nat × Nat) := [(1, 0), (0, 1), (2, 2)]

/-- Dictionary access `sent_map[n]`, embedded as an `Option`-valued lookup
(Python raises `KeyError` where this returns `none`). -/
def sentMapGet (n : Nat) : Option Nat := sentMapPairs.lookup n

/-- The evaluation map `xmap = {'neutral': 2, 'positive': 1, 'negative': 0}`
as its literal list of key-value pairs, in source order. -/
def xmapPairs : List (String × Nat) := [("neutral", 2), ("positive", 1), ("negative", 0)]

/-- Dictionary access `xmap[label]`, embedded as an `Option`-valued lookup
(Python raises `KeyError` where this returns `none`). -/
def xmapGet (s : String) : Option Nat := xmapPairs.lookup s

/-- The inverse of the `xmap` table: the key mapped to a given integer, if
any (well defined because the table's values are distinct). -/
def xmapInv (n : Nat) : Option String :=
  (xmapPairs.find? (fun p => p.2 == n)).map Prod.fst

/-! ## Character-level facts -/

lemma space_cases {c : Char} (hs : pyIsSpace c = true) :
    c = ' ' ∨ c = '\t' ∨ c = '\n' ∨ c = '\r' ∨ c = '\x0b' ∨ c = '\x0c' := by
  simpa [pyIsSpace, or_assoc] using hs

lemma allowed_not_space {c : Char} (h : allowedChar c = true) : pyIsSpace c = false := by
  cases hs : pyIsSpace c
  · rfl
  · exfalso
    rcases space_cases hs with h1 | h1 | h1 | h1 | h1 | h1 <;> subst h1 <;>
      exact absurd h (by decide)

lemma allowed_ne_bs {c : Char} (h : allowedChar c = true) : c ≠ '\\' := by
  rintro rfl; exact absurd h (by decide)

lemma allowed_ne_amp {c : Char} (h : allowedChar c = true) : c ≠ '&' := by
  rintro rfl; exact absurd h (by decide)

lemma space_ne_amp {c : Char} (h : pyIsSpace c = true) : c ≠ '&' := by
  rintro rfl; exact absurd h (by decide)

/-! ## `head?` / `getLast?` membership helpers -/

lemma mem_of_head?_eq {α : Type} {l : List α} {a : α} (h : l.head? = some a) : a ∈ l := by
  cases l with
  | nil => simp at h
  | cons b bs =>
    simp only [List.head?_cons, Option.some.injEq] at h
    subst h; exact List.mem_cons_self _ _

lemma mem_of_getLast?_eq {α : Type} {l : List α} {a : α} (h : l.getLast? = some a) : a ∈ l := by
  have h1 : l.reverse.head? = some a := by rw [List.head?_reverse]; exact h
  have h2 := mem_of_head?_eq h1
  simpa using h2

/-! ## `dropWhile` and `pyStrip` -/

lemma dropWhile_head?_false {p : Char → Bool} {l : List Char} {c : Char}
    (h : (l.dropWhile p).head? = some c) : p c = false := by
  induction l with
  | nil => simp at h
  | cons a as ih =>
    by_cases hp : p a
    · rw [List.dropWhile_cons_of_pos hp] at h; exact ih h
    · rw [List.dropWhile_cons_of_neg hp] at h
      simp only [List.head?_cons, Option.some.injEq] at h
      subst h; simpa using hp

lemma dropWhile_eq_self_of_head {p : Char → Bool} {l : List Char}
    (h : ∀ c, l.head? = some c → p c = false) : l.dropWhile p = l := by
  cases l with
  | nil => rfl
  | cons a as =>
    have := h a rfl
    rw [List.dropWhile_cons_of_neg (by simp [this])]

lemma mem_of_mem_dropWhile {p : Char → Bool} {l : List Char} {c : Char}
    (h : c ∈ l.dropWhile p) : c ∈ l :=
  (List.dropWhile_sublist p).subset h

lemma dropWhile_eq_drop (p : Char → Bool) (l : List Char) :
    ∃ k, l.dropWhile p = l.drop k := by
  induction l with
  | nil => exact ⟨0, rfl⟩
  | cons a as ih =>
    by_cases hp : p a
    · obtain ⟨k, hk⟩ := ih
      exact ⟨k + 1, by simpa [List.dropWhile_cons_of_pos hp] using hk⟩
    · exact ⟨0, by simp [List.dropWhile_cons_of_neg hp]⟩

lemma getLast?_drop_of_ne_nil {l : List Char} {k : Nat}
    (h : l.drop k ≠ []) : (l.drop k).getLast? = l.getLast? := by
  induction l generalizing k with
  | nil => simp at h
  | cons a as ih =>
    cases k with
    | zero => rfl
    | succ k =>
      rw [List.drop_succ_cons] at h ⊢
      rw [ih h]
      have hne : as ≠ [] := by
        intro he; rw [he] at h; simp at h
      cases as with
      | nil => exact absurd rfl hne
      | cons b bs => rw [List.getLast?_cons_cons]

lemma getLast?_dropWhile {p : Char → Bool} {l : List Char}
    (h : l.dropWhile p ≠ []) : (l.dropWhile p).getLast? = l.getLast? := by
  obtain ⟨k, hk⟩ := dropWhile_eq_drop p l
  rw [hk] at h ⊢
  exact getLast?_drop_of_ne_nil h

lemma pyStrip_nil : pyStrip [] = [] := rfl

lemma mem_of_mem_pyStrip {l : List Char} {c : Char} (h : c ∈ pyStrip l) : c ∈ l := by
  unfold pyStrip at h
  rw [List.mem_reverse] at h
  have h2 := mem_of_mem_dropWhile h
  rw [List.mem_reverse] at h2
  exact mem_of_mem_dropWhile h2

lemma pyStrip_eq_self {l : List Char}
    (h1 : ∀ c, l.head? = some c → pyIsSpace c = false)
    (h2 : ∀ c, l.getLast? = some c → pyIsSpace c = false) :
    pyStrip l = l := by
  unfold pyStrip
  rw [dropWhile_eq_self_of_head h1]
  rw [dropWhile_eq_self_of_head (fun c hc => h2 c (by rwa [List.head?_reverse] at hc))]
  exact l.reverse_reverse

lemma pyStrip_head?_false {l : List Char} {c : Char}
    (h : (pyStrip l).head? = some c) : pyIsSpace c = false := by
  unfold pyStrip at h
  rw [List.head?_reverse] at h
  have hne : ((l.dropWhile pyIsSpace).reverse).dropWhile pyIsSpace ≠ [] := by
    intro he; rw [he] at h; simp at h
  rw [getLast?_dropWhile hne, List.getLast?_reverse] at h
  exact dropWhile_head?_false h

lemma pyStrip_getLast?_false {l : List Char} {c : Char}
    (h : (pyStrip l).getLast? = some c) : pyIsSpace c = false := by
  unfold pyStrip at h
  rw [List.getLast?_reverse] at h
  exact dropWhile_head?_false h

lemma pyStrip_idem (l : List Char) : pyStrip (pyStrip l) = pyStrip l :=
  pyStrip_eq_self (fun _ hc => pyStrip_head?_false hc)
    (fun _ hc => pyStrip_getLast?_false hc)

lemma pyStrip_eq_self_of_noSpace {l : List Char}
    (h : ∀ c ∈ l, pyIsSpace c = false) : pyStrip l = l :=
  pyStrip_eq_self (fun c hc => h c (mem_of_head?_eq hc))
    (fun c hc => h c (mem_of_getLast?_eq hc))

/-! ## `splitAux` / `pySplitWS` -/

lemma splitAux_nil (acc : List Char) :
    splitAux [] acc = if acc = [] then [] else [acc.reverse] := rfl

lemma splitAux_append_noSpace {t : List Char} (rest acc : List Char)
    (h : ∀ c ∈ t, pyIsSpace c = false) :
    splitAux (t ++ rest) acc = splitAux rest (t.reverse ++ acc) := by
  induction t generalizing acc with
  | nil => simp
  | cons a as ih =>
    have ha : pyIsSpace a = false := h a (List.mem_cons_self _ _)
    rw [List.cons_append, show splitAux (a :: (as ++ rest)) acc = splitAux (as ++ rest) (a :: acc)
        by simp [splitAux, ha]]
    rw [ih _ (fun c hc => h c (List.mem_cons_of_mem _ hc))]
    simp

lemma splitAux_space_cons {c : Char} (rest acc : List Char) (hc : pyIsSpace c = true)
    (hacc : acc ≠ []) :
    splitAux (c :: rest) acc = acc.reverse :: splitAux rest [] := by
  simp [splitAux, hc, hacc]

/-- Tokens of `pySplitWS` are non-empty, whitespace-free, and their
characters all come from the input (carried by the predicate `P`). -/
lemma splitAux_good {P : Char → Prop} (l : List Char) :
    ∀ acc : List Char,
      (∀ c ∈ acc, pyIsSpace c = false ∧ P c) →
      (∀ c ∈ l, pyIsSpace c = false → P c) →
      ∀ t ∈ splitAux l acc, t ≠ [] ∧ ∀ c ∈ t, pyIsSpace c = false ∧ P c := by
  induction l with
  | nil =>
    intro acc hacc _ t ht
    rw [splitAux_nil] at ht
    by_cases he : acc = []
    · simp [he] at ht
    · simp only [he, if_false, List.mem_singleton] at ht
      subst ht
      refine ⟨by simp [he], ?_⟩
      intro c hc
      exact hacc c (by simpa using hc)
  | cons a as ih =>
    intro acc hacc hl t ht
    have hl' : ∀ c ∈ as, pyIsSpace c = false → P c :=
      fun c hc => hl c (List.mem_cons_of_mem _ hc)
    by_cases hs : pyIsSpace a = true
    · by_cases he : acc = []
      · rw [show splitAux (a :: as) acc = splitAux as [] by simp [splitAux, hs, he]] at ht
        exact ih [] (by simp) hl' t ht
      · rw [show splitAux (a :: as) acc = acc.reverse :: splitAux as [] by
            simp [splitAux, hs, he]] at ht
        rcases List.mem_cons.mp ht with h1 | h1
        · subst h1
          refine ⟨by simp [he], ?_⟩
          intro c hc
          exact hacc c (by simpa using hc)
        · exact ih [] (by simp) hl' t h1
    · have hs' : pyIsSpace a = false := by simpa using hs
      rw [show splitAux (a :: as) acc = splitAux as (a :: acc) by simp [splitAux, hs']] at ht
      refine ih (a :: acc) ?_ hl' t ht
      intro c hc
      rcases List.mem_cons.mp hc with h1 | h1
      · subst h1; exact ⟨hs', hl _ (List.mem_cons_self _ _) hs'⟩
      · exact hacc c h1

lemma pySplitWS_good {P : Char → Prop} {l : List Char}
    (hl : ∀ c ∈ l, pyIsSpace c = false → P c) :
    ∀ t ∈ pySplitWS l, t ≠ [] ∧ ∀ c ∈ t, pyIsSpace c = false ∧ P c :=
  splitAux_good l [] (by simp) hl

lemma splitAux_all_space {l : List Char} (h : ∀ c ∈ l, pyIsSpace c = true) :
    splitAux l [] = [] := by
  induction l with
  | nil => rfl
  | cons a as ih =>
    have ha := h a (List.mem_cons_self _ _)
    rw [show splitAux (a :: as) [] = splitAux as [] by simp [splitAux, ha]]
    exact ih (fun c hc => h c (List.mem_cons_of_mem _ hc))

/-! ## `joinSp` -/

/-- Each token is non-empty and whitespace-free. -/
def GoodToks (ts : List (List Char)) : Prop :=
  ∀ t ∈ ts, t ≠ [] ∧ ∀ c ∈ t, pyIsSpace c = false

lemma joinSp_ne_nil {t : List Char} {ts : List (List Char)} (h : t ≠ []) :
    joinSp (t :: ts) ≠ [] := by
  cases ts with
  | nil => simpa [joinSp] using h
  | cons t' ts' => simp [joinSp]

lemma mem_joinSp {ts : List (List Char)} {c : Char} (h : c ∈ joinSp ts) :
    c = ' ' ∨ ∃ t ∈ ts, c ∈ t := by
  induction ts with
  | nil => simp [joinSp] at h
  | cons t ts ih =>
    cases ts with
    | nil => exact Or.inr ⟨t, by simp, by simpa [joinSp] using h⟩
    | cons t' ts' =>
      rw [show joinSp (t :: t' :: ts') = t ++ ' ' :: joinSp (t' :: ts') from rfl] at h
      rcases List.mem_append.mp h with h1 | h1
      · exact Or.inr ⟨t, by simp, h1⟩
      · rcases List.mem_cons.mp h1 with h2 | h2
        · exact Or.inl h2
        · rcases ih h2 with h3 | ⟨x, hx, hcx⟩
          · exact Or.inl h3
          · exact Or.inr ⟨x, List.mem_cons_of_mem _ hx, hcx⟩

lemma joinSp_head? {t : List Char} (ts : List (List Char)) (h : t ≠ []) :
    (joinSp (t :: ts)).head? = t.head? := by
  cases ts with
  | nil => rfl
  | cons t' ts' =>
    rw [show joinSp (t :: t' :: ts') = t ++ ' ' :: joinSp (t' :: ts') from rfl]
    cases t with
    | nil => exact absurd rfl h
    | cons a as => rfl

lemma joinSp_getLast?_mem {ts : List (List Char)} (h : ∀ t ∈ ts, t ≠ []) {c : Char}
    (hc : (joinSp ts).getLast? = some c) : ∃ t ∈ ts, c ∈ t := by
  induction ts with
  | nil => simp [joinSp] at hc
  | cons t ts ih =>
    cases ts with
    | nil =>
      exact ⟨t, by simp, mem_of_getLast?_eq (by simpa [joinSp] using hc)⟩
    | cons t' ts' =>
      rw [show joinSp (t :: t' :: ts') = t ++ ' ' :: joinSp (t' :: ts') from rfl] at hc
      rw [List.getLast?_append_of_ne_nil _ (by simp)] at hc
      have hJ : joinSp (t' :: ts') ≠ [] :=
        joinSp_ne_nil (h t' (List.mem_cons_of_mem _ (List.mem_cons_self _ _)))
      obtain ⟨b, bs, hb⟩ : ∃ b bs, joinSp (t' :: ts') = b :: bs := by
        cases hJ' : joinSp (t' :: ts') with
        | nil => exact absurd hJ' hJ
        | cons b bs => exact ⟨b, bs, rfl⟩
      rw [hb, List.getLast?_cons_cons] at hc
      obtain ⟨x, hx, hcx⟩ := ih (fun x hx => h x (List.mem_cons_of_mem _ hx)) (by rw [hb]; exact hc)
      exact ⟨x, List.mem_cons_of_mem _ hx, hcx⟩

lemma pyStrip_joinSp {ts : List (List Char)} (h : GoodToks ts) :
    pyStrip (joinSp ts) = joinSp ts := by
  cases ts with
  | nil => rfl
  | cons t ts' =>
    apply pyStrip_eq_self
    · intro c hc
      rw [joinSp_head? ts' (h t (List.mem_cons_self _ _)).1] at hc
      exact (h t (List.mem_cons_self _ _)).2 c (mem_of_head?_eq hc)
    · intro c hc
      obtain ⟨x, hx, hcx⟩ := joinSp_getLast?_mem (fun x hx => (h x hx).1) hc
      exact (h x hx).2 c hcx

/-- Re-splitting a single-space join of non-empty whitespace-free tokens
recovers exactly the tokens. -/
lemma pySplitWS_joinSp {ts : List (List Char)} (h : GoodToks ts) :
    pySplitWS (joinSp ts) = ts := by
  induction ts with
  | nil => rfl
  | cons t ts ih =>
    obtain ⟨hne, hns⟩ := h t (List.mem_cons_self _ _)
    cases ts with
    | nil =>
      show splitAux (joinSp [t]) [] = [t]
      rw [show joinSp [t] = t from rfl]
      calc splitAux t [] = splitAux (t ++ []) [] := by rw [List.append_nil]
        _ = splitAux [] (t.reverse ++ []) := splitAux_append_noSpace _ _ hns
        _ = [t] := by rw [List.append_nil, splitAux_nil]; simp [hne]
    | cons t' ts' =>
      have h' : GoodToks (t' :: ts') := fun x hx => h x (List.mem_cons_of_mem _ hx)
      show splitAux (joinSp (t :: t' :: ts')) [] = t :: t' :: ts'
      rw [show joinSp (t :: t' :: ts') = t ++ ' ' :: joinSp (t' :: ts') from rfl]
      rw [splitAux_append_noSpace _ _ hns, List.append_nil]
      rw [splitAux_space_cons _ _ (by decide) (by simp [hne])]
      rw [List.reverse_reverse]
      exact congrArg (List.cons t) (ih h')

/-! ## `splitGo` / `pySplitOnSeq` -/

lemma splitGo_no_bs {l : List Char} (hl : ∀ c ∈ l, c ≠ '\\') :
    ∀ fuel, splitGo bsw fuel l = [l] := by
  induction l with
  | nil => intro fuel; cases fuel <;> rfl
  | cons a as ih =>
    intro fuel
    cases fuel with
    | zero => rfl
    | succ fuel =>
      have ha : a ≠ '\\' := hl a (List.mem_cons_self _ _)
      have hb : ('\\' == a) = false := by
        cases hx : ('\\' == a)
        · rfl
        · exact absurd (beq_iff_eq.mp hx).symm ha
      have hsw : startsWith bsw (a :: as) = false := by
        rw [show startsWith bsw (a :: as) = (('\\' == a) && startsWith ['w', '+'] as) from rfl]
        rw [hb, Bool.false_and]
      rw [show splitGo bsw (fuel + 1) (a :: as) =
          match splitGo bsw fuel as with
          | [] => [[a]]
          | p :: ps => (a :: p) :: ps
        by simp [splitGo, hsw]]
      rw [ih (fun c hc => hl c (List.mem_cons_of_mem _ hc)) fuel]

lemma pySplitOnSeq_no_bs {l : List Char} (hl : ∀ c ∈ l, c ≠ '\\') :
    pySplitOnSeq bsw l = [l] :=
  splitGo_no_bs hl _

/-! ## Character set of the pipeline output -/

lemma mem_filterTok {z : List Char} {c : Char} (h : c ∈ filterTok z) :
    c = ' ' ∨ allowedChar c = true := by
  unfold filterTok at h
  obtain ⟨a, _, ha⟩ := List.mem_map.mp h
  by_cases hc : allowedChar a = true
  · right; rw [if_pos hc] at ha; rwa [ha] at hc
  · left; rw [if_neg hc] at ha; exact ha.symm

lemma lpCoreNoSplit_chars {l : List Char} {c : Char} (h : c ∈ lpCoreNoSplit l) :
    c = ' ' ∨ allowedChar c = true := by
  unfold lpCoreNoSplit at h
  have h1 := mem_of_mem_pyStrip h
  rcases mem_joinSp h1 with h2 | ⟨w, hw, hcw⟩
  · exact Or.inl h2
  · obtain ⟨z, hz, hzw⟩ := List.mem_map.mp hw
    rw [← hzw] at hcw
    have h3 := mem_of_mem_pyStrip hcw
    have hz' := List.mem_of_mem_filter hz
    obtain ⟨y, _, hyz⟩ := List.mem_map.mp hz'
    rw [← hyz] at h3
    exact mem_filterTok h3

lemma lpCoreNoSplit_no_bs (l : List Char) : ∀ c ∈ lpCoreNoSplit l, c ≠ '\\' := by
  intro c hc
  rcases lpCoreNoSplit_chars hc with h | h
  · subst h; decide
  · exact allowed_ne_bs h

/-- The final `.split('\w+')`-then-rejoin step is the identity on the
pipeline's intermediate string, because no backslash survives the character
filter. -/
lemma lpCore_eq_noSplit (l : List Char) : lpCore l = lpCoreNoSplit l := by
  unfold lpCore
  rw [pySplitOnSeq_no_bs (lpCoreNoSplit_no_bs l)]
  rfl

/-! ## Per-token rewrite facts -/

lemma filterTok_eq_self {z : List Char} (h : ∀ c ∈ z, allowedChar c = true) :
    filterTok z = z := by
  unfold filterTok
  have heq : ∀ a ∈ z, (if allowedChar a then a else ' ') = id a := by
    intro a ha; rw [if_pos (h a ha)]; rfl
  rw [List.map_congr_left heq, List.map_id]

lemma startsWith_head_false {p c : Char} {ps cs : List Char} (h : p ≠ c) :
    startsWith (p :: ps) (c :: cs) = false := by
  rw [show startsWith (p :: ps) (c :: cs) = ((p == c) && startsWith ps cs) from rfl]
  have hb : (p == c) = false := by
    cases hx : (p == c)
    · rfl
    · exact absurd (beq_iff_eq.mp hx) h
  rw [hb, Bool.false_and]

lemma numMatchLen_nondigit {c : Char} {l : List Char} (h : isDigitC c = false) :
    numMatchLen (c :: l) = none := by
  unfold numMatchLen
  rw [List.takeWhile_cons_of_neg (by simp [h])]
  simp

lemma procTok_http {z : List Char} (h : startsWith "http".data z = true) :
    procTok z = "#link".data := by
  unfold procTok subLink
  rw [if_pos h]
  rfl

lemma procTok_mention {z : List Char} (h1 : startsWith "http".data z = false)
    (h2 : startsWith "@".data z = true) : procTok z = "@mention".data := by
  unfold procTok subLink
  rw [if_neg (ne_true_of_eq_false h1)]
  unfold subMention
  rw [if_pos h2]
  rfl

lemma procTok_cash {z : List Char} (h1 : startsWith "http".data z = false)
    (h2 : startsWith "@".data z = false) (h3 : startsWith "$".data z = true) :
    procTok z = "$cashtag".data := by
  unfold procTok subLink subMention
  rw [if_neg (ne_true_of_eq_false h1), if_neg (ne_true_of_eq_false h2)]
  unfold subCash
  rw [if_pos h3]
  rfl

lemma procTok_of_noRules {z : List Char} (h1 : startsWith "http".data z = false)
    (h2 : startsWith "@".data z = false) (h3 : startsWith "$".data z = false) :
    procTok z = filterTok (subNum z) := by
  unfold procTok subLink subMention subCash
  rw [if_neg (ne_true_of_eq_false h1), if_neg (ne_true_of_eq_false h2), if_neg (ne_true_of_eq_false h3)]

lemma subNum_some {z : List Char} {L : Nat} (h : numMatchLen z = some L) :
    subNum z = "#number".data ++ z.drop L := by
  unfold subNum; rw [h]

lemma subNum_none {z : List Char} (h : numMatchLen z = none) : subNum z = z := by
  unfold subNum; rw [h]

/-- On a non-empty token made only of allowed characters, the per-token
transform yields a non-empty token of allowed characters, and it is a fixed
point of the transform (the source of idempotence on such inputs). -/
lemma procTok_spec {t : List Char} (hne : t ≠ []) (hall : ∀ c ∈ t, allowedChar c = true) :
    procTok t ≠ [] ∧ (∀ c ∈ procTok t, allowedChar c = true) ∧
      procTok (procTok t) = procTok t := by
  by_cases b1 : startsWith "http".data t = true
  · rw [procTok_http b1]
    exact ⟨by decide, by decide, by decide⟩
  · have b1' : startsWith "http".data t = false := by simpa using b1
    by_cases b2 : startsWith "@".data t = true
    · rw [procTok_mention b1' b2]
      exact ⟨by decide, by decide, by decide⟩
    · have b2' : startsWith "@".data t = false := by simpa using b2
      by_cases b3 : startsWith "$".data t = true
      · rw [procTok_cash b1' b2' b3]
        exact ⟨by decide, by decide, by decide⟩
      · have b3' : startsWith "$".data t = false := by simpa using b3
        cases hm : numMatchLen t with
        | none =>
          have hpt : procTok t = t := by
            rw [procTok_of_noRules b1' b2' b3', subNum_none hm, filterTok_eq_self hall]
          rw [hpt]
          exact ⟨hne, hall, hpt⟩
        | some L =>
          have hall' : ∀ c ∈ "#number".data ++ t.drop L, allowedChar c = true := by
            intro c hc
            rcases List.mem_append.mp hc with hcm | hcm
            · have hnum : ∀ c ∈ "#number".data, allowedChar c = true := by decide
              exact hnum c hcm
            · exact hall c (List.mem_of_mem_drop hcm)
          have hpt : procTok t = "#number".data ++ t.drop L := by
            rw [procTok_of_noRules b1' b2' b3', subNum_some hm, filterTok_eq_self hall']
          have hrw : "#number".data ++ t.drop L = '#' :: ("number".data ++ t.drop L) := rfl
          have hfix : procTok ("#number".data ++ t.drop L) = "#number".data ++ t.drop L := by
            rw [hrw]
            rw [procTok_of_noRules (startsWith_head_false (by decide))
                (startsWith_head_false (by decide)) (startsWith_head_false (by decide))]
            rw [subNum_none (numMatchLen_nondigit (by decide))]
            rw [filterTok_eq_self (by rw [← hrw]; exact hall')]
          rw [hpt]
          exact ⟨by simp, hall', hfix⟩

/-! ## Pipeline assembly -/

lemma map_procTok_fusion (ts : List (List Char)) :
    ((((ts.map subLink).map subMention).map subCash).map subNum).map filterTok
      = ts.map procTok := by
  simp only [List.map_map]
  rfl

lemma lpCoreNoSplit_of_good {l : List Char}
    (hgood : ∀ t ∈ pySplitWS l, t ≠ [] ∧ ∀ c ∈ t, allowedChar c = true) :
    lpCoreNoSplit l = joinSp ((pySplitWS l).map procTok) := by
  have hmem : ∀ w ∈ (pySplitWS l).map procTok, w ≠ [] ∧ ∀ c ∈ w, allowedChar c = true := by
    intro w hw
    obtain ⟨t, ht, hwt⟩ := List.mem_map.mp hw
    obtain ⟨hne, hall⟩ := hgood t ht
    obtain ⟨h1, h2, _⟩ := procTok_spec hne hall
    rw [← hwt]; exact ⟨h1, h2⟩
  have hstrip : ∀ w ∈ (pySplitWS l).map procTok, pyStrip w = w := fun w hw =>
    pyStrip_eq_self_of_noSpace (fun c hc => allowed_not_space ((hmem w hw).2 c hc))
  have hfilter : ((pySplitWS l).map procTok).filter (fun z => decide (0 < (pyStrip z).length))
      = (pySplitWS l).map procTok := by
    rw [List.filter_eq_self]
    intro w hw
    rw [hstrip w hw]
    simp only [decide_eq_true_eq, List.length_pos]
    exact (hmem w hw).1
  have hGT : GoodToks ((pySplitWS l).map procTok) := by
    intro w hw
    exact ⟨(hmem w hw).1, fun c hc => allowed_not_space ((hmem w hw).2 c hc)⟩
  have hdef : lpCoreNoSplit l = pyStrip (joinSp ((((((((pySplitWS l).map subLink).map
      subMention).map subCash).map subNum).map filterTok).filter
      (fun z => decide (0 < (pyStrip z).length))).map pyStrip)) := rfl
  rw [hdef, map_procTok_fusion, hfilter, List.map_congr_left hstrip, List.map_id']
  exact pyStrip_joinSp hGT

lemma splitWS_allowed {l : List Char} (h : ∀ c ∈ l, c = ' ' ∨ allowedChar c = true) :
    ∀ t ∈ pySplitWS l, t ≠ [] ∧ ∀ c ∈ t, allowedChar c = true := by
  have hl : ∀ c ∈ l, pyIsSpace c = false → allowedChar c = true := by
    intro c hc hns
    rcases h c hc with h1 | h1
    · rw [h1] at hns; exact absurd hns (by decide)
    · exact h1
  intro t ht
  obtain ⟨h1, h2⟩ := pySplitWS_good hl t ht
  exact ⟨h1, fun c hc => (h2 c hc).2⟩

/-- Idempotence of the full pipeline on inputs made only of spaces and
allowed characters. -/
lemma lpCore_idem_allowed {l : List Char} (h : ∀ c ∈ l, c = ' ' ∨ allowedChar c = true) :
    lpCore (lpCore l) = lpCore l := by
  have hgood := splitWS_allowed h
  have hps : ∀ w ∈ (pySplitWS l).map procTok, w ≠ [] ∧ (∀ c ∈ w, allowedChar c = true) ∧
      procTok w = w := by
    intro w hw
    obtain ⟨t, ht, hwt⟩ := List.mem_map.mp hw
    obtain ⟨hne, hall⟩ := hgood t ht
    obtain ⟨h1, h2, h3⟩ := procTok_spec hne hall
    subst hwt
    exact ⟨h1, h2, h3⟩
  have hGT : GoodToks ((pySplitWS l).map procTok) := by
    intro w hw
    obtain ⟨h1, h2, _⟩ := hps w hw
    exact ⟨h1, fun c hc => allowed_not_space (h2 c hc)⟩
  rw [lpCore_eq_noSplit l, lpCoreNoSplit_of_good hgood]
  rw [lpCore_eq_noSplit]
  have hsplit2 : pySplitWS (joinSp ((pySplitWS l).map procTok)) = (pySplitWS l).map procTok :=
    pySplitWS_joinSp hGT
  have hgood2 : ∀ t ∈ pySplitWS (joinSp ((pySplitWS l).map procTok)),
      t ≠ [] ∧ ∀ c ∈ t, allowedChar c = true := by
    rw [hsplit2]
    intro w hw
    obtain ⟨h1, h2, _⟩ := hps w hw
    exact ⟨h1, h2⟩
  rw [lpCoreNoSplit_of_good hgood2, hsplit2]
  rw [List.map_congr_left (fun w hw => (hps w hw).2.2), List.map_id']

lemma lpCore_all_space {l : List Char} (h : ∀ c ∈ l, pyIsSpace c = true) :
    lpCore l = [] := by
  rw [lpCore_eq_noSplit]
  have hdef : lpCoreNoSplit l = pyStrip (joinSp ((((((((pySplitWS l).map subLink).map
      subMention).map subCash).map subNum).map filterTok).filter
      (fun z => decide (0 < (pyStrip z).length))).map pyStrip)) := rfl
  rw [hdef, show pySplitWS l = [] from splitAux_all_space h]
  rfl

lemma lpCore_strip (l : List Char) : pyStrip (lpCore l) = lpCore l := by
  rw [lpCore_eq_noSplit]
  have hdef : lpCoreNoSplit l = pyStrip (joinSp ((((((((pySplitWS l).map subLink).map
      subMention).map subCash).map subNum).map filterTok).filter
      (fun z => decide (0 < (pyStrip z).length))).map pyStrip)) := rfl
  rw [hdef]
  exact pyStrip_idem _

lemma unescape_fix {u : String → String} (hu : UnescapeOK u) {s : String}
    (h : ∀ c ∈ s.data, c = ' ' ∨ allowedChar c = true) : u s = s := by
  apply hu
  intro c hc
  rcases h c hc with h1 | h1
  · subst h1; decide
  · exact allowed_ne_amp h1

lemma liteParser_data (u : String → String) (s : String) :
    (liteParser u s).data = lpCore (u s).data := rfl

/-! ## Claim theorems -/

/-- C1 (counterexample): the normalizer is not idempotent on every string.
On `"a--b"` the character filter turns the two hyphens into two interior
spaces, giving `"a  b"`; a second application re-splits on that whitespace
and yields `"a b"`, so applying the normalizer twice differs from applying
it once. -/
theorem liteParser_idem_cex :
    liteParser id "a--b" = "a  b" ∧ liteParser id (liteParser id "a--b") = "a b" ∧
      liteParser id (liteParser id "a--b") ≠ liteParser id "a--b" := by
  refine ⟨by decide, by decide, by decide⟩

/-- C1 (amended): the normalizer is idempotent on every input string all of
whose characters are spaces or members of the allowed class
`[a-zA-Z@#$0-9.,!?']` (provided `html.unescape` fixes ampersand-free
strings, which such strings are). -/
theorem liteParser_idem_allowed (u : String → String) (s : String) (hu : UnescapeOK u)
    (hs : ∀ c ∈ s.data, c = ' ' ∨ allowedChar c = true) :
    liteParser u (liteParser u s) = liteParser u s := by
  have hus : u s = s := unescape_fix hu hs
  have hout : ∀ c ∈ (liteParser u s).data, c = ' ' ∨ allowedChar c = true := by
    intro c hc
    rw [liteParser_data, hus, lpCore_eq_noSplit] at hc
    exact lpCoreNoSplit_chars hc
  have huo : u (liteParser u s) = liteParser u s := unescape_fix hu hout
  show String.mk (lpCore (u (liteParser u s)).data) = liteParser u s
  rw [huo]
  show String.mk (lpCore (lpCore (u s).data)) = String.mk (lpCore (u s).data)
  exact congrArg String.mk (lpCore_idem_allowed (by rw [hus]; exact hs))

/-- Witness for `liteParser_idem_allowed` at `u = id`, `s = "ab"`. -/
theorem liteParser_idem_allowed_witness :
    UnescapeOK id ∧ liteParser id (liteParser id "ab") = liteParser id "ab" :=
  ⟨fun _ _ => rfl, liteParser_idem_allowed id "ab" (fun _ _ => rfl) (by decide)⟩

/-- C2: the final `.split('\w+')` acts on the literal three-character
separator string; since no backslash survives the character filter, the
split-and-rejoin is the identity, so the normalizer equals the pipeline
with that final step removed, for every unescape function and every
input string. -/
theorem liteParser_eq_noSplit (u : String → String) (s : String) :
    liteParser u s = liteParserNoSplit u s :=
  congrArg String.mk (lpCore_eq_noSplit (u s).data)

/-- C3: every character of the normalizer's output is a space or belongs
to the allowed class `[a-zA-Z@#$0-9.,!?']`, for every unescape function
and every input string. -/
theorem liteParser_allowed_chars (u : String → String) (s : String) :
    (liteParser u s).data.all (fun c => c == ' ' || allowedChar c) = true := by
  rw [List.all_eq_true]
  intro c hc
  rw [liteParser_data, lpCore_eq_noSplit] at hc
  rcases lpCoreNoSplit_chars hc with h | h
  · subst h; rfl
  · rw [h, Bool.or_true]

/-- C4 (counterexample): a token consisting of a single digit is not
rewritten to `#number`: the regex `^\d+\.*\d+` requires a second digit
group, so `"5"` is returned unchanged. -/
theorem liteParser_single_digit_cex :
    liteParser id "5" = "5" ∧ liteParser id "5" ≠ "#number" := by
  refine ⟨by decide, by decide⟩

/-- C4 (amended): on a token that does not start with `http`, `@` or `$`,
the numeric rule applies; when the anchored pattern `\d+\.*\d+` matches a
prefix of length `L`, exactly that prefix is replaced by `#number` and the
remainder of the token is kept; when it does not match, the token is left
unchanged; in particular a single-digit token has no match and is kept. -/
theorem liteParser_number_rule :
    (∀ z : List Char, startsWith "http".data z = false → startsWith "@".data z = false →
        startsWith "$".data z = false → procTok z = filterTok (subNum z)) ∧
    (∀ (z : List Char) (L : Nat), numMatchLen z = some L →
        subNum z = "#number".data ++ z.drop L) ∧
    (∀ (z : List Char), numMatchLen z = none → subNum z = z) ∧
    numMatchLen ['5'] = none := by
  refine ⟨?_, ?_, ?_, by decide⟩
  · intro z h1 h2 h3; exact procTok_of_noRules h1 h2 h3
  · intro z L h; exact subNum_some h
  · intro z h; exact subNum_none h

/-- Witness for `liteParser_number_rule` on the token `100.5x`. -/
theorem liteParser_number_rule_witness :
    procTok "100.5x".data = filterTok (subNum "100.5x".data) ∧
      subNum "100.5x".data = "#number".data ++ ("100.5x".data).drop 5 :=
  ⟨liteParser_number_rule.1 "100.5x".data (by decide) (by decide) (by decide),
   liteParser_number_rule.2.1 "100.5x".data 5 (by decide)⟩

/-- C5: the fine-tuning remap `sent_map = {1:0,0:1,2:2}` is characterized
by its lookup function, its values are pairwise distinct, it is onto
`{0,1,2}`, and it is consistent between conventions: for every dataset
label `d` in `{0,1,2}`, the dataset category of `d` (0 negative /
1 positive / 2 neutral) equals the category the model's id-to-label table
(0 positive / 1 negative / 2 neutral) assigns to `sent_map[d]`. -/
theorem sentMap_bijective_consistent :
    (∀ n : Nat, sentMapGet n =
      if n = 1 then some 0 else if n = 0 then some 1 else if n = 2 then some 2 else none) ∧
    (sentMapPairs.map Prod.snd).Nodup ∧
    (∀ m : Fin 3, ∃ n : Fin 3, sentMapGet n.val = some m.val) ∧
    (∀ d : Fin 3, datasetCat d.val = (sentMapGet d.val).bind id2label) := by
  refine ⟨?_, by decide, by decide, by decide⟩
  intro n
  by_cases h1 : n = 1
  · subst h1; rfl
  · by_cases h0 : n = 0
    · subst h0; rfl
    · by_cases h2 : n = 2
      · subst h2; rfl
      · rw [if_neg h1, if_neg h0, if_neg h2]
        have hb1 : (n == 1) = false := beq_eq_false_iff_ne.mpr h1
        have hb0 : (n == 0) = false := beq_eq_false_iff_ne.mpr h0
        have hb2 : (n == 2) = false := beq_eq_false_iff_ne.mpr h2
        simp [sentMapGet, sentMapPairs, List.lookup, hb1, hb0, hb2]

/-- C6: `xmap = {'neutral':2,'positive':1,'negative':0}` is a bijection
between the three canonical categories and `{0,1,2}`: the round trip
through the table and its inverse restores every category, every category
is mapped to an integer below 3, and every integer below 3 is hit. -/
theorem xmap_roundtrip :
    (∀ c : Sentiment, (xmapGet (canonStr c)).bind xmapInv = some (canonStr c)) ∧
      (∀ c : Sentiment, ∃ n : Fin 3, xmapGet (canonStr c) = some n.val) ∧
      (∀ n : Fin 3, ∃ c : Sentiment, xmapGet (canonStr c) = some n.val) := by
  refine ⟨by decide, by decide, by decide⟩

/-- C7: the label-alignment lookup `xmap[label]` errs exactly on label
strings outside `{'neutral','positive','negative'}` (embedded as an
`Option`: `none` models Python's `KeyError` on the unchecked dictionary
access) and returns the mapped integer on the three known strings. -/
theorem xmap_error_exactly :
    (∀ s : String, xmapGet s = none ↔ ¬(s = "neutral" ∨ s = "positive" ∨ s = "negative")) ∧
      xmapGet "neutral" = some 2 ∧ xmapGet "positive" = some 1 ∧ xmapGet "negative" = some 0 := by
  refine ⟨?_, rfl, rfl, rfl⟩
  intro s
  by_cases h1 : s = "neutral"
  · subst h1; decide
  · by_cases h2 : s = "positive"
    · subst h2; decide
    · by_cases h3 : s = "negative"
      · subst h3; decide
      · constructor
        · intro _
          rintro (hc | hc | hc)
          exacts [h1 hc, h2 hc, h3 hc]
        · intro _
          have hb1 : (s == "neutral") = false := beq_eq_false_iff_ne.mpr h1
          have hb2 : (s == "positive") = false := beq_eq_false_iff_ne.mpr h2
          have hb3 : (s == "negative") = false := beq_eq_false_iff_ne.mpr h3
          simp [xmapGet, xmapPairs, List.lookup, hb1, hb2, hb3]

/-- C8: the two reference inputs of the spec are normalized exactly as
specified: the `http`-prefixed token becomes `#link`, `@elonmusk` becomes
`@mention`, `$TSLA` becomes `$cashtag`, and `100.5` becomes `#number`,
with all other words unchanged. -/
theorem liteParser_examples (u : String → String) (hu : UnescapeOK u) :
    liteParser u "Check out http://example.com now" = "Check out #link now" ∧
      liteParser u "@elonmusk said $TSLA will hit 100.5 today"
        = "@mention said $cashtag will hit #number today" := by
  constructor
  · have h1 : u "Check out http://example.com now" = "Check out http://example.com now" :=
      hu _ (by decide)
    show String.mk (lpCore (u "Check out http://example.com now").data) = _
    rw [h1]
    decide
  · have h2 : u "@elonmusk said $TSLA will hit 100.5 today"
        = "@elonmusk said $TSLA will hit 100.5 today" := hu _ (by decide)
    show String.mk (lpCore (u "@elonmusk said $TSLA will hit 100.5 today").data) = _
    rw [h2]
    decide

/-- Witness for `liteParser_examples` at `u = id`. -/
theorem liteParser_examples_witness :
    liteParser id "Check out http://example.com now" = "Check out #link now" ∧
      liteParser id "@elonmusk said $TSLA will hit 100.5 today"
        = "@mention said $cashtag will hit #number today" :=
  liteParser_examples id (fun _ _ => rfl)

/-- C9: the normalizer is a total, deterministic, side-effect-free
function on strings: it always yields a string, and equal inputs produce
equal outputs. -/
theorem liteParser_total_deterministic (u : String → String) (s₁ s₂ : String)
    (h : s₁ = s₂) :
    (∃ r : String, liteParser u s₁ = r) ∧ liteParser u s₁ = liteParser u s₂ :=
  ⟨⟨liteParser u s₁, rfl⟩, by rw [h]⟩

/-- Witness for `liteParser_total_deterministic` at `u = id`, `s = "a"`. -/
theorem liteParser_total_deterministic_witness :
    (∃ r : String, liteParser id "a" = r) ∧ liteParser id "a" = liteParser id "a" :=
  liteParser_total_deterministic id "a" "a" rfl

/-- C10: the normalizer's output carries no leading or trailing
whitespace (stripping it is the identity), and every input consisting
only of whitespace characters — including the empty string — is mapped to
the empty string. -/
theorem liteParser_trim (u : String → String) (s : String) (hu : UnescapeOK u) :
    pyStrip (liteParser u s).data = (liteParser u s).data ∧
      ((∀ c ∈ s.data, pyIsSpace c = true) → liteParser u s = "") := by
  constructor
  · rw [liteParser_data]
    exact lpCore_strip _
  · intro hws
    have hus : u s = s := hu s (fun c hc => space_ne_amp (hws c hc))
    show String.mk (lpCore (u s).data) = ""
    rw [hus, lpCore_all_space hws]

/-- Witness for `liteParser_trim` at `u = id`, `s = " \t "`. -/
theorem liteParser_trim_witness :
    UnescapeOK id ∧ pyStrip (liteParser id " \t ").data = (liteParser id " \t ").data ∧
      liteParser id " \t " = "" :=
  ⟨fun _ _ => rfl, (liteParser_trim id " \t " (fun _ _ => rfl)).1,
   (liteParser_trim id " \t " (fun _ _ => rfl)).2 (by decide)⟩
